import Mathlib

/-!
Verification of the natural-language specification of `git-clean` against a
shallow embedding of its Rust source (src/lib.rs, src/error.rs, src/config.rs).

The embedding translates the program's pure logic directly; the external
collaborators (git2 repository access, the GitHub search service, the TOML
serializer) are modelled as explicit parameters or as faithful functional
models, as the spec directs (they are outside the core).
-/

namespace GitClean

/-! ### Character helpers

Models of Rust's `u8::to_ascii_lowercase` / `str::eq_ignore_ascii_case`
(used in `should_delete_branch`, lib.rs:215) and of the regex `\w` word-char
class (lib.rs:20-22).  The model treats `\w` as ASCII letters, digits and
underscore; the spec describes the class as "letters, digits, underscore". -/

/-- ASCII lowercasing of a single character, as in Rust's
`to_ascii_lowercase`: `A`-`Z` map to `a`-`z`, everything else unchanged. -/
def asciiLower (c : Char) : Char :=
  if 'A' ≤ c ∧ c ≤ 'Z' then Char.ofNat (c.toNat + 32) else c

/-- Model of Rust's `str::eq_ignore_ascii_case`: the strings have equal
length and corresponding characters agree after ASCII lowercasing. -/
def eqIgnoreAsciiCase (a b : String) : Bool :=
  a.toList.map asciiLower == b.toList.map asciiLower

/-- Word character of the regex class `\w` (ASCII scope): letter, digit or
underscore. -/
def isWordChar (c : Char) : Bool :=
  c.isAlphanum || c = '_'

/-! ### Remote URL parser (lib.rs:17-30)

The two regexes are

  SSH:   `^git@github.com:(?P<org>\w+)/(?P<repo>\w+).git$`
  HTTPS: `^https://github.com/(?P<org>\w+)/(?P<repo>\w+).git$`

Note that the dots in `github.com` and `.git` are unescaped, so each matches
an arbitrary single character.  The embedding below reproduces exactly that:
one arbitrary character where each unescaped `.` stands.  The `\w+` capture
before the final `.git$` is unambiguous because the suffix after it has a
fixed length of four characters, so the capture is forced to be everything
but the last four characters; the `\w+` capture before `/` is the maximal
word-character run because `/` is not a word character. -/

/-- Consume an exact expected sequence of characters from the front of a
list, returning the remainder, or `none` when it does not start with it. -/
def dropExact : List Char → List Char → Option (List Char)
  | [], s => some s
  | _ :: _, [] => none
  | p :: ps, c :: cs => if p = c then dropExact ps cs else none

/-- Match the tail `(?P<repo>\w+).git$` (with the unescaped dot): the input
must be `repo ++ [anychar] ++ "git"` with `repo` a non-empty run of word
characters; returns the `repo` capture. -/
def matchRepoTail (s : List Char) : Option (List Char) :=
  if s.length < 4 then none
  else
    let repo := s.take (s.length - 4)
    match s.drop (s.length - 4) with
    | [_, 'g', 'i', 't'] =>
      if repo ≠ [] ∧ repo.all isWordChar then some repo else none
    | _ => none

/-- Match `(?P<org>\w+)/(?P<repo>\w+).git$`: the maximal word-character run,
then a literal `/`, then the repo tail. -/
def matchOrgRepo (s : List Char) : Option (List Char × List Char) :=
  let org := s.takeWhile isWordChar
  match org, s.dropWhile isWordChar with
  | [], _ => none
  | _, '/' :: tail => (matchRepoTail tail).map (fun repo => (org, repo))
  | _, _ => none

/-- Match the SSH regex `^git@github.com:(?P<org>\w+)/(?P<repo>\w+).git$`
(dot in `github.com` unescaped, hence one arbitrary character). -/
def matchSsh (s : List Char) : Option (List Char × List Char) :=
  match dropExact "git@github".toList s with
  | none => none
  | some rest =>
    match rest with
    | [] => none
    | _ :: rest2 =>
      match dropExact "com:".toList rest2 with
      | none => none
      | some rest3 => matchOrgRepo rest3

/-- Match the HTTPS regex `^https://github.com/(?P<org>\w+)/(?P<repo>\w+).git$`. -/
def matchHttp (s : List Char) : Option (List Char × List Char) :=
  match dropExact "https://github".toList s with
  | none => none
  | some rest =>
    match rest with
    | [] => none
    | _ :: rest2 =>
      match dropExact "com/".toList rest2 with
      | none => none
      | some rest3 => matchOrgRepo rest3

/-- Embedding of `parse_git_url` (lib.rs:17-30): try the SSH regex, then the
HTTPS regex, and return the `org` and `repo` captures. -/
def parse_git_url (url : String) : Option (String × String) :=
  match matchSsh url.toList with
  | some (org, repo) => some (String.mk org, String.mk repo)
  | none =>
    match matchHttp url.toList with
    | some (org, repo) => some (String.mk org, String.mk repo)
    | none => none

/-! ### Review requests and the branch classifier (lib.rs:204-223) -/

/-- The fields of `octocrab::models::issues::Issue` that the program reads:
the issue number and its state string. -/
structure Issue where
  number : Nat
  state : String
deriving DecidableEq, Repr

/-- Embedding of `should_delete_branch` (lib.rs:204-223): retain when there
are no review requests; retain when any request's state differs
case-insensitively from "closed"; otherwise delete. -/
def should_delete_branch (prs : List Issue) : Bool :=
  if prs.isEmpty then false
  else if prs.any (fun pr => !(eqIgnoreAsciiCase pr.state "closed")) then false
  else true

/-! ### Review-request resolver (lib.rs:45-77)

The GitHub search service is an external collaborator.  It is modelled as a
function from the query string and the per-page limit to either an error or
the full sequence of pages it would serve for that query.  Each served item
is recorded together with the pull request's true source branch (`head`),
which exists on the service side; the client code only ever receives the
`Issue` payload and performs no filtering of its own. -/

/-- A record on the service side: the pull request's source branch together
with the issue payload the search API returns for it. -/
structure SearchItem where
  head : String
  issue : Issue
deriving DecidableEq, Repr

/-- The external search service: query string and per-page limit to an error
or the pages served for the query. -/
abbrev Service := String → Nat → Except String (List (List SearchItem))

/-- The query string built by `get_pr_page` (lib.rs:57-59):
`format!("is:pr repo:{owner}/{repo_name} head:{branch_name}")`. -/
def buildQuery (owner repo_name branch_name : String) : String :=
  "is:pr repo:" ++ owner ++ "/" ++ repo_name ++ " head:" ++ branch_name

/-- Embedding of `get_pr_page` (lib.rs:45-64): issue the search query with
the per-page limit defaulting to 100 (the GitHub ceiling). -/
def get_pr_page (service : Service) (owner repo_name branch_name : String)
    (limit : Option Nat) : Except String (List (List SearchItem)) :=
  service (buildQuery owner repo_name branch_name) (limit.getD 100)

/-- Model of octocrab's `all_pages`: concatenate the issue payloads of every
page, in order. -/
def all_pages (pages : List (List SearchItem)) : List Issue :=
  (pages.map (fun page => page.map SearchItem.issue)).flatten

/-- Embedding of `get_prs` (lib.rs:66-77): fetch the first page (default
limit) and follow pagination to the end, concatenating; any failure is the
resolver's failure. -/
def get_prs (service : Service) (owner repo_name branch_name : String) :
    Except String (List Issue) :=
  (get_pr_page service owner repo_name branch_name none).map all_pages

/-! ### Per-branch evaluation task (lib.rs:142-167) -/

/-- Embedding of the body of the per-branch task spawned by
`clean_branches` (lib.rs:142-167): skip the default branch before any
resolver call; a resolver error yields no deletion; otherwise delete exactly
when `should_delete_branch` says so.  `some name` is the task's
`Some(branch_name_to_delete)`, `none` its `None`. -/
def evalBranch (maybe_default_branch : Option String) (service : Service)
    (owner repo_name branch_name : String) : Option String :=
  if (maybe_default_branch.map (fun d => d == branch_name)).getD false then
    none
  else
    match get_prs service owner repo_name branch_name with
    | .error _ => none
    | .ok prs => if should_delete_branch prs then some branch_name else none

/-! ### Orchestrator (lib.rs:92-202) -/

/-- Embedding of `error::Error` (error.rs:1-25); the wrapped `git2` and
`octocrab` inner errors are reduced to their context strings. -/
inductive Error where
  | Git (context : String)
  | Github (context : String)
  | WrongRemoteCount (n : Nat)
  | InexpressableRemote
  | RemoteUrlNotUtf8
  | RemoteUrlNotGithub
  | BranchNameNotUtf8
deriving DecidableEq, Repr

/-- The git repository collaborator as consumed by `clean_branches`:
the remote-name list (`none` = name not UTF-8), the remote lookup collapsed
to its URL (`.error` = `find_remote` failed; `.ok none` = URL not UTF-8),
and the local branch list (`none` = the branch's name is not decodable as
UTF-8, or listing the branch failed — both are handled identically by the
`filter_map` pipeline at lib.rs:131-132). -/
structure Repo where
  remotes : List (Option String)
  find_remote : String → Except String (Option String)
  branches : List (Option String)

/-- The branch names that survive the `filter_map` pipeline
(lib.rs:131-132): entries whose names are decodable. -/
def branchNames (r : Repo) : List String :=
  r.branches.filterMap id

/-- Embedding of the deletion loop body (lib.rs:187-198) applied to the
collected task results: for each `Some(branch_name)`, re-find the branch (it
must still exist), and unless `dry_run` delete it; a failed deletion
(`delete_ok` false) is logged and leaves the branch in place. -/
def applyDeletions (dry_run : Bool) (delete_ok : String → Bool) :
    List (Option String) → List String → List String
  | [], state => state
  | none :: rest, state => applyDeletions dry_run delete_ok rest state
  | some name :: rest, state =>
    if name ∈ state then
      if !dry_run then
        if delete_ok name then
          applyDeletions dry_run delete_ok rest (state.erase name)
        else
          applyDeletions dry_run delete_ok rest state
      else
        applyDeletions dry_run delete_ok rest state
    else
      applyDeletions dry_run delete_ok rest state

/-- Embedding of `clean_branches` (lib.rs:92-202).  The GitHub service, the
best-effort default-branch lookup (lib.rs:122, `get_default_branch`) and the
success of individual deletions are explicit parameters.  The result carries
the per-branch task results (branch name paired with the task's
`Option<branch_name_to_delete>`) and the final set of local branches, which
the Rust function produces as its side effect on the repository; its actual
return value is `Ok(())` whenever no fatal error occurs. -/
def clean_branches (r : Repo) (dry_run : Bool) (service : Service)
    (maybe_default_branch : Option String) (delete_ok : String → Bool) :
    Except Error (List (String × Option String) × List String) :=
  if r.remotes.length ≠ 1 then
    .error (Error.WrongRemoteCount r.remotes.length)
  else
    match r.remotes.head? with
    | none => .error Error.InexpressableRemote
    | some none => .error Error.InexpressableRemote
    | some (some remote_name) =>
      match r.find_remote remote_name with
      | .error _ => .error (Error.Git "get remote by name")
      | .ok none => .error Error.RemoteUrlNotUtf8
      | .ok (some url) =>
        match parse_git_url url with
        | none => .error Error.RemoteUrlNotGithub
        | some (owner, repo_name) =>
          let results := (branchNames r).map fun b =>
            (b, evalBranch maybe_default_branch service owner repo_name b)
          let final := applyDeletions dry_run delete_ok
            (results.map Prod.snd) (branchNames r)
          .ok (results, final)

/-! ### Trace model of the result-processing loop (lib.rs:174-199)

`FuturesUnordered` yields each spawned task's result in an arbitrary
completion order; the loop body immediately attempts the deletion for that
result before awaiting the next completion.  The trace records, in program
order, each task completion and each invocation of `branch.delete()`. -/

/-- Observable events of the orchestrator's result-processing loop. -/
inductive Event where
  | taskDone (branch : String) (verdict : Option String)
  | deleteCall (branch : String)
deriving DecidableEq, Repr

/-- Trace of the loop at lib.rs:174-199: the input list is the sequence of
task results in completion order (branch, task verdict); the state is the
current set of local branches consulted by `find_branch`. -/
def orchTrace (dry_run : Bool) (delete_ok : String → Bool) :
    List (String × Option String) → List String → List Event
  | [], _ => []
  | (b, verdict) :: rest, state =>
    Event.taskDone b verdict ::
      match verdict with
      | none => orchTrace dry_run delete_ok rest state
      | some name =>
        if name ∈ state then
          if !dry_run then
            Event.deleteCall name ::
              orchTrace dry_run delete_ok rest
                (if delete_ok name then state.erase name else state)
          else
            orchTrace dry_run delete_ok rest state
        else
          orchTrace dry_run delete_ok rest state

/-- Decidable rendering of the claim "every deletion is ordered strictly
after the completion of all evaluation tasks": no `taskDone` event occurs
anywhere after a `deleteCall` event. -/
def deletionsAfterAllTasks : List Event → Bool
  | [] => true
  | Event.deleteCall _ :: rest =>
    rest.all (fun e => match e with
      | Event.taskDone _ _ => false
      | _ => true) && deletionsAfterAllTasks rest
  | _ :: rest => deletionsAfterAllTasks rest

/-! ### Configuration persistence (config.rs:5-37)

`Config::save_at` serializes with `toml::to_string_pretty` and writes the
text followed by one newline (`writeln!`); `Config::load_at` reads the text
back and parses it with `toml::from_str`.  The TOML crate is an external
collaborator; it is modelled by a lossless TOML basic-string encoder for the
single field, and a parser for the emitted shape: the key assignment
`personal_access_token = "..."` with standard TOML escape sequences
(`\"  \\  \n  \t  \r  \b  \f` and `\u00XX` for the remaining control
characters), tolerating trailing whitespace. -/

/-- Embedding of `config::Config` (config.rs:5-8). -/
structure Config where
  personal_access_token : String
deriving DecidableEq, Repr

/-- Uppercase hexadecimal digit for a value below 16. -/
def hexDigit (n : Nat) : Char :=
  if n < 10 then Char.ofNat (48 + n) else Char.ofNat (55 + n)

/-- Value of a hexadecimal digit character, either case. -/
def hexVal (c : Char) : Option Nat :=
  if '0' ≤ c ∧ c ≤ '9' then some (c.toNat - 48)
  else if 'a' ≤ c ∧ c ≤ 'f' then some (c.toNat - 87)
  else if 'A' ≤ c ∧ c ≤ 'F' then some (c.toNat - 55)
  else none

/-- TOML basic-string escaping of one character. -/
def escapeChar (c : Char) : List Char :=
  if c = '\\' then ['\\', '\\']
  else if c = '"' then ['\\', '"']
  else if c = '\n' then ['\\', 'n']
  else if c = '\t' then ['\\', 't']
  else if c = '\r' then ['\\', 'r']
  else if c.toNat = 8 then ['\\', 'b']
  else if c.toNat = 12 then ['\\', 'f']
  else if c.toNat < 32 ∨ c.toNat = 127 then
    ['\\', 'u', '0', '0', hexDigit (c.toNat / 16), hexDigit (c.toNat % 16)]
  else [c]

/-- TOML basic-string escaping of a character sequence. -/
def escapeString : List Char → List Char
  | [] => []
  | c :: rest => escapeChar c ++ escapeString rest

/-- Inverse of the two-character escape sequences. -/
def unescapeChar (e : Char) : Option Char :=
  if e = '"' then some '"'
  else if e = '\\' then some '\\'
  else if e = 'n' then some '\n'
  else if e = 't' then some '\t'
  else if e = 'r' then some '\r'
  else if e = 'b' then some (Char.ofNat 8)
  else if e = 'f' then some (Char.ofNat 12)
  else none

/-- Parse the body of a TOML basic string (after the opening quote) up to
the closing quote, returning the decoded content and the rest of the input.
Raw control characters are rejected, escape sequences are decoded. -/
def parseBasicString : List Char → Option (List Char × List Char)
  | [] => none
  | c :: rest =>
    if c = '"' then some ([], rest)
    else if c = '\\' then
      match rest with
      | 'u' :: h1 :: h2 :: h3 :: h4 :: r =>
        match hexVal h1, hexVal h2, hexVal h3, hexVal h4 with
        | some a, some b, some v, some d =>
          (parseBasicString r).map
            (fun p => (Char.ofNat (((a * 16 + b) * 16 + v) * 16 + d) :: p.1, p.2))
        | _, _, _, _ => none
      | e :: r =>
        match unescapeChar e with
        | some u => (parseBasicString r).map (fun p => (u :: p.1, p.2))
        | none => none
      | [] => none
    else if c.toNat < 32 ∨ c.toNat = 127 then none
    else (parseBasicString rest).map (fun p => (c :: p.1, p.2))

/-- Model of `toml::to_string_pretty` on a `Config` (config.rs:24): the
single key assignment with the token as a TOML basic string, ending in a
newline. -/
def tomlSerializeConfig (c : Config) : List Char :=
  "personal_access_token = ".toList
    ++ '"' :: (escapeString c.personal_access_token.toList ++ '"' :: ['\n'])

/-- Embedding of `Config::save_at` (config.rs:21-28): the serialized TOML
followed by the newline appended by `writeln!`; the result is the file
content written. -/
def save_at (c : Config) : List Char :=
  tomlSerializeConfig c ++ ['\n']

/-- TOML whitespace and newlines. -/
def isTomlSpace (c : Char) : Bool :=
  c = ' ' || c = '\t' || c = '\n' || c = '\r'

/-- Embedding of `Config::load_at` (config.rs:34-37) on file content: parse
the key assignment and its basic-string value, requiring the remainder to be
whitespace; any parse failure is the function's error (`none`). -/
def load_at (data : List Char) : Option Config :=
  match dropExact "personal_access_token = ".toList data with
  | none => none
  | some rest =>
    match rest with
    | '"' :: rest2 =>
      match parseBasicString rest2 with
      | none => none
      | some (tok, rest3) =>
        if rest3.all isTomlSpace then some ⟨String.mk tok⟩ else none
    | _ => none

/-! ### Concrete instances used to settle the claims -/

/-- The property the spec ascribes to the resolver, stated from the spec's
words for comparison with the source-derived `get_prs`: the resolver's
result contains a served item's issue exactly when that item's source
branch equals the requested branch name. -/
def specResolverExactMatch (service : Service)
    (owner repo_name branch_name : String) : Prop :=
  ∀ pages res, service (buildQuery owner repo_name branch_name) 100 = .ok pages →
    get_prs service owner repo_name branch_name = .ok res →
    ∀ item, (∃ page ∈ pages, item ∈ page) →
      (item.issue ∈ res ↔ item.head = branch_name)

/-- A service that, for any query, serves one item whose source branch is
"other": a search response not constrained to the requested branch. -/
def c2FailService : Service := fun _ _ => .ok [[⟨"other", ⟨1, "closed"⟩⟩]]

/-- A service that serves one closed pull request from branch "feature". -/
def c2WitService : Service := fun _ _ => .ok [[⟨"feature", ⟨7, "closed"⟩⟩]]

/-- A repository with a single valid remote and one local branch whose name
is not decodable as UTF-8. -/
def c7Repo : Repo :=
  { remotes := [some "origin"]
  , find_remote := fun _ => .ok (some "git@github.com:me/proj.git")
  , branches := [none] }

/-- A service that serves no pull requests at all. -/
def c7Service : Service := fun _ _ => .ok []

/-- A repository with a single valid remote and two local branches. -/
def c5Repo : Repo :=
  { remotes := [some "origin"]
  , find_remote := fun _ => .ok (some "git@github.com:me/proj.git")
  , branches := [some "keep", some "bad"] }

/-- A service whose resolution fails with a network error exactly for the
query about branch "bad" and serves no requests otherwise. -/
def c5Service : Service := fun q _ =>
  if q = buildQuery "me" "proj" "bad" then .error "network" else .ok []

/-! ### Helper lemmas -/

/-- Characterization of `should_delete_branch`: delete exactly when the
request list is non-empty and every state is case-insensitively "closed". -/
theorem should_delete_iff (prs : List Issue) :
    should_delete_branch prs = true ↔
      prs ≠ [] ∧ ∀ pr ∈ prs, eqIgnoreAsciiCase pr.state "closed" = true := by
  unfold should_delete_branch
  cases prs with
  | nil => simp
  | cons h t => simp [List.any_eq_true, Bool.not_eq_true']

/-- Left cancellation of string concatenation. -/
theorem strAppendCancel (a b c : String) (h : a ++ b = a ++ c) : b = c := by
  have hd : a.data ++ b.data = a.data ++ c.data := by
    have := congrArg String.data h
    simpa [String.data_append] using this
  have hbc : b.data = c.data := List.append_cancel_left hd
  cases b; cases c; simp_all

/-- Distinct branches give distinct search queries. -/
theorem buildQuery_inj (o rp b1 b2 : String) (h : b1 ≠ b2) :
    buildQuery o rp b1 ≠ buildQuery o rp b2 := by
  intro he
  exact h (strAppendCancel _ _ _ he)

/-- A branch's evaluation consults the service only through the query built
for that branch: services agreeing there give the same verdict. -/
theorem evalBranch_service_congr (md : Option String) (s s' : Service)
    (o rp b : String)
    (h : s' (buildQuery o rp b) 100 = s (buildQuery o rp b) 100) :
    evalBranch md s o rp b = evalBranch md s' o rp b := by
  simp [evalBranch, get_prs, get_pr_page, Option.getD, h]

/-- A branch whose resolution fails yields no deletion. -/
theorem evalBranch_error (md : Option String) (s : Service) (o rp b e : String)
    (h : s (buildQuery o rp b) 100 = .error e) :
    evalBranch md s o rp b = none := by
  simp [evalBranch, get_prs, get_pr_page, Option.getD, h, Except.map]

/-- A task's verdict is either no deletion or the deletion of exactly its
own branch. -/
theorem evalBranch_none_or_self (md : Option String) (s : Service) (o rp b : String) :
    evalBranch md s o rp b = none ∨ evalBranch md s o rp b = some b := by
  unfold evalBranch
  split
  · exact Or.inl rfl
  · split
    · exact Or.inl rfl
    · split
      · exact Or.inr rfl
      · exact Or.inl rfl

/-- A branch that no verdict targets survives the deletion loop. -/
theorem applyDeletions_mem (dry : Bool) (delOk : String → Bool)
    (verdicts : List (Option String)) (st : List String) (B : String)
    (hmem : B ∈ st) (hv : ∀ v ∈ verdicts, v ≠ some B) :
    B ∈ applyDeletions dry delOk verdicts st := by
  induction verdicts generalizing st with
  | nil => exact hmem
  | cons v rest ih =>
    have hvrest : ∀ w ∈ rest, w ≠ some B := fun w hw => hv w (List.mem_cons_of_mem _ hw)
    cases v with
    | none => exact ih st hmem hvrest
    | some name =>
      have hne : name ≠ B := by
        intro hx
        exact hv (some name) (List.mem_cons_self _ _) (by rw [hx])
      show B ∈ applyDeletions dry delOk (some name :: rest) st
      unfold applyDeletions
      split
      · split
        · split
          · exact ih _ ((List.mem_erase_of_ne (fun hx => hne hx.symm)).mpr hmem) hvrest
          · exact ih st hmem hvrest
        · exact ih st hmem hvrest
      · exact ih st hmem hvrest

/-- In dry-run mode the deletion loop leaves the branch set untouched. -/
theorem applyDeletions_dry (delOk : String → Bool) (l : List (Option String))
    (st : List String) : applyDeletions true delOk l st = st := by
  induction l generalizing st with
  | nil => rfl
  | cons v rest ih =>
    cases v with
    | none => simp [applyDeletions, ih]
    | some name => simp [applyDeletions, ih]

/-- Re-wrapping a list in `some` and filtering it back is the identity. -/
theorem filterMap_id_map_some (l : List String) :
    List.filterMap id (l.map some) = l := by
  induction l with
  | nil => rfl
  | cons x xs ih => simp [List.filterMap, ih]

/-- Dropping an expected sequence from its own concatenation succeeds and
returns the remainder. -/
theorem dropExact_append (p r : List Char) : dropExact p (p ++ r) = some r := by
  induction p with
  | nil => rfl
  | cons c cs ih => simp [dropExact, ih]

/-- The hexadecimal digit round trip below 16. -/
theorem hexVal_hexDigit : ∀ n, n < 16 → hexVal (hexDigit n) = some n := by decide

/-- Unfolding of `parseBasicString` on a unicode escape sequence with valid
hexadecimal digits. -/
theorem parseBasicString_u (h1 h2 h3 h4 : Char) (a b v d : Nat) (r : List Char)
    (ha : hexVal h1 = some a) (hb : hexVal h2 = some b)
    (hv : hexVal h3 = some v) (hd : hexVal h4 = some d) :
    parseBasicString ('\\' :: 'u' :: h1 :: h2 :: h3 :: h4 :: r) =
      (parseBasicString r).map
        (fun p => (Char.ofNat (((a * 16 + b) * 16 + v) * 16 + d) :: p.1, p.2)) := by
  simp [parseBasicString, ha, hb, hv, hd]

/-- Unfolding of `parseBasicString` on an unescaped ordinary character. -/
theorem parseBasicString_raw (c : Char) (r : List Char)
    (h1 : ¬c = '"') (h2 : ¬c = '\\') (h3 : ¬(c.toNat < 32 ∨ c.toNat = 127)) :
    parseBasicString (c :: r) = (parseBasicString r).map (fun p => (c :: p.1, p.2)) := by
  conv_lhs => rw [parseBasicString.eq_def]
  simp only []
  rw [if_neg h1, if_neg h2, if_neg h3]

/-- The TOML basic-string escaping round trip: parsing the escaped text
followed by the closing quote recovers the original characters and the
remaining input. -/
theorem parseBasicString_escape (s rest : List Char) :
    parseBasicString (escapeString s ++ '"' :: rest) = some (s, rest) := by
  induction s with
  | nil =>
    show parseBasicString ('"' :: rest) = some ([], rest)
    rw [parseBasicString.eq_def]
    simp
  | cons c cs ih =>
    show parseBasicString ((escapeChar c ++ escapeString cs) ++ '"' :: rest) = _
    rw [List.append_assoc]
    unfold escapeChar
    by_cases h1 : c = '\\'
    · subst h1; simp [parseBasicString, unescapeChar, ih]
    · rw [if_neg h1]
      by_cases h2 : c = '"'
      · subst h2; simp [parseBasicString, unescapeChar, ih]
      · rw [if_neg h2]
        by_cases h3 : c = '\n'
        · subst h3; simp [parseBasicString, unescapeChar, ih]
        · rw [if_neg h3]
          by_cases h4 : c = '\t'
          · subst h4; simp [parseBasicString, unescapeChar, ih]
          · rw [if_neg h4]
            by_cases h5 : c = '\r'
            · subst h5; simp [parseBasicString, unescapeChar, ih]
            · rw [if_neg h5]
              by_cases h6 : c.toNat = 8
              · have hc : c = Char.ofNat 8 := by rw [← Char.ofNat_toNat c, h6]
                subst hc
                simp [parseBasicString, unescapeChar, ih]
              · rw [if_neg h6]
                by_cases h7 : c.toNat = 12
                · have hc : c = Char.ofNat 12 := by rw [← Char.ofNat_toNat c, h7]
                  subst hc
                  simp [parseBasicString, unescapeChar, ih]
                · rw [if_neg h7]
                  by_cases h8 : c.toNat < 32 ∨ c.toNat = 127
                  · rw [if_pos h8]
                    have hdiv : c.toNat / 16 < 16 := by omega
                    have hmod : c.toNat % 16 < 16 := Nat.mod_lt _ (by norm_num)
                    simp only [List.cons_append, List.nil_append]
                    rw [parseBasicString_u '0' '0' (hexDigit (c.toNat / 16))
                      (hexDigit (c.toNat % 16)) 0 0 (c.toNat / 16) (c.toNat % 16) _
                      (by decide) (by decide)
                      (hexVal_hexDigit _ hdiv) (hexVal_hexDigit _ hmod)]
                    rw [ih]
                    have harith : ((0 * 16 + 0) * 16 + c.toNat / 16) * 16 + c.toNat % 16
                        = c.toNat := by omega
                    simp [harith]
                    have hfold : c.toNat / 16 * 16 + c.toNat % 16 = c.toNat := by omega
                    rw [hfold, Char.ofNat_toNat]
                  · rw [if_neg h8]
                    simp only [List.cons_append, List.nil_append]
                    rw [parseBasicString_raw c _ h2 h1 h8, ih]
                    rfl

/-! ### Claims -/

/-- C1: the branch classifier is total (it is a Lean function into `Bool`,
returning one of exactly two verdicts, `true` = Delete, `false` = Retain)
and, on the non-default-branch path, returns Delete iff the request list is
non-empty and every request's state compares case-insensitively equal to
"closed"; in particular it returns Retain on the empty list. -/
theorem c1_classifier_total_delete_iff (prs : List Issue) :
    (should_delete_branch prs = true ↔
      prs ≠ [] ∧ ∀ pr ∈ prs, eqIgnoreAsciiCase pr.state "closed" = true) ∧
    should_delete_branch [] = false :=
  ⟨should_delete_iff prs, rfl⟩

/-- C8: for the repository's default branch the verdict is Retain (the task
returns `none`, no deletion) regardless of any review-request state, and the
result is independent of the service — the resolver is never consulted,
since `evalBranch` short-circuits before `get_prs` for every `service`. -/
theorem c8_default_branch_short_circuits (service : Service)
    (owner repo_name b : String) :
    evalBranch (some b) service owner repo_name b = none := by
  simp [evalBranch]

/-- C9: classifier monotonicity.  Adding one Open-state request (state not
case-insensitively "closed") anywhere into a request list whose verdict is
Delete flips the verdict to Retain; and removing that single Open request
from a non-empty list whose other members are all Closed flips the verdict
from Retain to Delete. -/
theorem c9_monotonicity (l1 l2 : List Issue) (r : Issue)
    (hopen : eqIgnoreAsciiCase r.state "closed" = false) :
    (should_delete_branch (l1 ++ l2) = true →
      should_delete_branch (l1 ++ r :: l2) = false) ∧
    (l1 ++ l2 ≠ [] →
      (∀ pr ∈ l1 ++ l2, eqIgnoreAsciiCase pr.state "closed" = true) →
      should_delete_branch (l1 ++ r :: l2) = false ∧
      should_delete_branch (l1 ++ l2) = true) := by
  have hfalse : should_delete_branch (l1 ++ r :: l2) = false := by
    rw [Bool.eq_false_iff]
    intro htrue
    have hall := ((should_delete_iff _).mp htrue).2 r (by simp)
    rw [hall] at hopen
    cases hopen
  refine ⟨fun _ => hfalse, fun hne hall => ⟨hfalse, ?_⟩⟩
  exact (should_delete_iff _).mpr ⟨hne, hall⟩

/-- Witness for C9 at a concrete input: one closed request plus one open
request is retained; the closed request alone is deleted. -/
theorem c9_monotonicity_witness :
    should_delete_branch [⟨1, "closed"⟩, ⟨2, "open"⟩] = false ∧
    should_delete_branch [⟨1, "closed"⟩] = true :=
  (c9_monotonicity [⟨1, "closed"⟩] [] ⟨2, "open"⟩ (by decide)).2
    (by decide) (by decide)

/-- C10: configuration round trip.  Serializing any `Config` with `save_at`
(pretty TOML plus the trailing newline added by `writeln!`) and parsing the
written text back with `load_at` recovers the configuration, in particular
its `personal_access_token`. -/
theorem c10_config_round_trip (c : Config) : load_at (save_at c) = some c := by
  unfold load_at save_at tomlSerializeConfig
  rw [List.append_assoc, dropExact_append]
  simp only [List.cons_append, List.append_assoc, List.nil_append]
  rw [parseBasicString_escape]
  simp [isTomlSpace]

/-- C2 counterexample: the claim that the resolver returns exactly the
review requests whose source branch equals the requested branch is false at
a concrete input.  `c2FailService` serves an item from source branch
"other" for the query about branch "b"; `get_prs` returns its issue anyway,
because the code performs no post-fetch filtering. -/
theorem c2_counterexample : ¬ specResolverExactMatch c2FailService "o" "r" "b" := by
  intro h
  have := h [[⟨"other", ⟨1, "closed"⟩⟩]] [⟨1, "closed"⟩] rfl rfl
    ⟨"other", ⟨1, "closed"⟩⟩ (by simp)
  simp at this

/-- C2 amended: the resolver returns exactly the concatenation of every
page the service serves for the query built from owner, repository and
branch, with no filtering of its own; an issue is in the result iff the
service served it, whatever its source branch. -/
theorem c2_resolver_unfiltered (service : Service)
    (owner repo_name branch_name : String)
    (pages : List (List SearchItem)) (i : Issue)
    (h : service (buildQuery owner repo_name branch_name) 100 = .ok pages) :
    get_prs service owner repo_name branch_name = .ok (all_pages pages) ∧
    (i ∈ all_pages pages ↔ ∃ page ∈ pages, ∃ item ∈ page, item.issue = i) := by
  constructor
  · simp [get_prs, get_pr_page, Option.getD, h, Except.map]
  · simp [all_pages, List.mem_flatten, List.mem_map]

/-- Witness for the C2 amended theorem at a concrete service. -/
theorem c2_resolver_unfiltered_witness :
    get_prs c2WitService "own" "repo" "feature" =
      .ok (all_pages [[⟨"feature", ⟨7, "closed"⟩⟩]]) ∧
    ((⟨7, "closed"⟩ : Issue) ∈ all_pages [[⟨"feature", ⟨7, "closed"⟩⟩]] ↔
      ∃ page ∈ [[(⟨"feature", ⟨7, "closed"⟩⟩ : SearchItem)]],
        ∃ item ∈ page, item.issue = ⟨7, "closed"⟩) :=
  c2_resolver_unfiltered c2WitService "own" "repo" "feature"
    [[⟨"feature", ⟨7, "closed"⟩⟩]] ⟨7, "closed"⟩ rfl

/-- C3: evaluation of the parser at the failing input.  The input lacks the
literal ".git" suffix (its last four characters are "Xgit"), yet the parser
accepts it, because the dot in the regex `.git$` is unescaped and matches
any character; the claim (and the spec's stated intent of a literal ".git"
suffix) says parsing must return nothing here. -/
theorem c3_parse_accepts_missing_dot_git :
    parse_git_url "git@github.com:org/repoXgit" = some ("org", "repo") ∧
    "git@github.com:org/repoXgit".toList.drop 23 ≠ ".git".toList := by
  refine ⟨by decide, by decide⟩

/-- C4 counterexample: a concrete execution of the result-processing loop
in which the deletion of branch "a" happens strictly before the completion
of the task for branch "b", refuting the claim that every deletion is
ordered after the completion of all evaluation tasks. -/
theorem c4_counterexample :
    orchTrace false (fun _ => true) [("a", some "a"), ("b", none)] ["a", "b"] =
      [Event.taskDone "a" (some "a"), Event.deleteCall "a",
        Event.taskDone "b" none] ∧
    deletionsAfterAllTasks
      (orchTrace false (fun _ => true) [("a", some "a"), ("b", none)]
        ["a", "b"]) = false := by
  refine ⟨by decide, by decide⟩

/-- C4 amended: deletions are interleaved with task completions, but each
deletion is ordered strictly after the completion of the evaluation task
for that same branch: in every execution trace, a `deleteCall b` event is
preceded by the `taskDone b` event (for task results that, like the real
tasks, only ever propose their own branch for deletion). -/
theorem c4_deletion_after_own_task
    (dry : Bool) (delOk : String → Bool)
    (completions : List (String × Option String)) (state : List String)
    (l1 l2 : List Event) (b : String)
    (hwf : ∀ p ∈ completions, ∀ x, p.2 = some x → x = p.1)
    (h : orchTrace dry delOk completions state = l1 ++ Event.deleteCall b :: l2) :
    Event.taskDone b (some b) ∈ l1 := by
  induction completions generalizing state l1 l2 with
  | nil => simp [orchTrace] at h
  | cons p rest ih =>
    obtain ⟨pb, pv⟩ := p
    have hwfrest : ∀ q ∈ rest, ∀ x, q.2 = some x → x = q.1 :=
      fun q hq => hwf q (List.mem_cons_of_mem _ hq)
    cases pv with
    | none =>
      simp only [orchTrace] at h
      cases l1 with
      | nil => simp at h
      | cons e l1t =>
        rw [List.cons_append] at h
        have he := (List.cons.injEq _ _ _ _).mp h
        exact List.mem_cons_of_mem _ (ih state l1t l2 hwfrest he.2)
    | some name =>
      have hname : name = pb := hwf (pb, some name) (List.mem_cons_self _ _) name rfl
      subst hname
      simp only [orchTrace] at h
      by_cases hmem : name ∈ state
      · rw [if_pos hmem] at h
        by_cases hd : (!dry) = true
        · rw [if_pos hd] at h
          cases l1 with
          | nil => simp at h
          | cons e l1t =>
            rw [List.cons_append] at h
            have he := (List.cons.injEq _ _ _ _).mp h
            cases l1t with
            | nil =>
              simp only [List.nil_append] at he
              have h2 := (List.cons.injEq _ _ _ _).mp he.2
              have hb : name = b := by injection h2.1
              subst hb
              rw [← he.1]
              exact List.mem_cons_self _ _
            | cons e2 l1tt =>
              rw [List.cons_append] at he
              have h2 := (List.cons.injEq _ _ _ _).mp he.2
              have hmem2 := ih _ l1tt l2 hwfrest h2.2
              exact List.mem_cons_of_mem _ (List.mem_cons_of_mem _ hmem2)
        · rw [if_neg hd] at h
          cases l1 with
          | nil => simp at h
          | cons e l1t =>
            rw [List.cons_append] at h
            have he := (List.cons.injEq _ _ _ _).mp h
            exact List.mem_cons_of_mem _ (ih state l1t l2 hwfrest he.2)
      · rw [if_neg hmem] at h
        cases l1 with
        | nil => simp at h
        | cons e l1t =>
          rw [List.cons_append] at h
          have he := (List.cons.injEq _ _ _ _).mp h
          exact List.mem_cons_of_mem _ (ih state l1t l2 hwfrest he.2)

/-- Witness for the C4 amended theorem at the concrete interleaved trace of
the counterexample: the deletion of "a" is preceded by its own completion. -/
theorem c4_deletion_after_own_task_witness :
    Event.taskDone "a" (some "a") ∈ [Event.taskDone "a" (some "a")] :=
  c4_deletion_after_own_task false (fun _ => true)
    [("a", some "a"), ("b", none)] ["a", "b"]
    [Event.taskDone "a" (some "a")] [Event.taskDone "b" none] "a"
    (by
      intro p hp x hx
      simp only [List.mem_cons, List.not_mem_nil, or_false] at hp
      rcases hp with hp | hp
      · subst hp
        have : ("a" : String) = x := by injection hx
        rw [← this]
      · subst hp
        cases hx)
    (by decide)

/-- C5: isolation of a resolver failure.  With a well-formed single-remote
repository, if the service fails for branch B's query then the run still
returns success; every decodable branch receives a verdict; every other
branch's verdict is the one computed by any service that agrees away from
B's query (B's failure does not influence it); and B itself is excluded
from the delete set — it keeps its implicit Retain and survives in the
final branch set. -/
theorem c5_resolver_failure_isolated
    (r : Repo) (dry : Bool) (s s' : Service) (md : Option String)
    (delOk : String → Bool) (rn url o rp B e : String)
    (h1 : r.remotes = [some rn])
    (h2 : r.find_remote rn = .ok (some url))
    (h3 : parse_git_url url = some (o, rp))
    (h4 : s (buildQuery o rp B) 100 = .error e)
    (h5 : ∀ q n, q ≠ buildQuery o rp B → s' q n = s q n) :
    ∃ results final,
      clean_branches r dry s md delOk = .ok (results, final) ∧
      results.map Prod.fst = branchNames r ∧
      (∀ b, b ∈ branchNames r → b ≠ B → (b, evalBranch md s' o rp b) ∈ results) ∧
      (B ∈ branchNames r → (B, none) ∈ results ∧ B ∈ final) := by
  have hBnone : evalBranch md s o rp B = none := evalBranch_error md s o rp B e h4
  refine ⟨(branchNames r).map (fun b => (b, evalBranch md s o rp b)),
    applyDeletions dry delOk
      (((branchNames r).map (fun b => (b, evalBranch md s o rp b))).map Prod.snd)
      (branchNames r), ?_, ?_, ?_, ?_⟩
  · unfold clean_branches
    rw [h1]
    simp only [List.length_singleton, List.head?_cons, h2, h3]
    simp
  · rw [List.map_map,
      show (Prod.fst ∘ fun b => (b, evalBranch md s o rp b)) = id from rfl,
      List.map_id]
  · intro b hb hne
    have hcongr : evalBranch md s o rp b = evalBranch md s' o rp b :=
      evalBranch_service_congr md s s' o rp b
        (h5 (buildQuery o rp b) 100 (buildQuery_inj o rp b B hne))
    rw [← hcongr]
    exact List.mem_map_of_mem _ hb
  · intro hB
    constructor
    · have := List.mem_map_of_mem (fun b => (b, evalBranch md s o rp b)) hB
      simpa [hBnone] using this
    · refine applyDeletions_mem dry delOk _ _ B hB ?_
      intro v hv
      rw [List.map_map] at hv
      simp only [List.mem_map] at hv
      obtain ⟨b3, hb3, hv3⟩ := hv
      intro hveq
      rw [← hv3] at hveq
      have hveq2 : evalBranch md s o rp b3 = some B := hveq
      rcases evalBranch_none_or_self md s o rp b3 with hn | hself
      · rw [hn] at hveq2; cases hveq2
      · rw [hself] at hveq2
        have hb3B : b3 = B := by injection hveq2
        subst hb3B
        rw [hBnone] at hself
        cases hself

/-- Witness for C5 at a concrete two-branch repository where the service
fails for branch "bad". -/
theorem c5_resolver_failure_isolated_witness :
    ∃ results final,
      clean_branches c5Repo false c5Service none (fun _ => true) =
        .ok (results, final) ∧
      results.map Prod.fst = branchNames c5Repo ∧
      (∀ b, b ∈ branchNames c5Repo → b ≠ "bad" →
        (b, evalBranch none c5Service "me" "proj" b) ∈ results) ∧
      ("bad" ∈ branchNames c5Repo →
        ("bad", none) ∈ results ∧ "bad" ∈ final) :=
  c5_resolver_failure_isolated c5Repo false c5Service c5Service none
    (fun _ => true) "origin" "git@github.com:me/proj.git" "me" "proj" "bad"
    "network" rfl rfl (by decide) rfl (fun _ _ _ => rfl)

/-- C6: dry-run computes exactly the per-branch verdicts of a non-dry run
(whatever that run's deletion successes or failures would be) and leaves
the branch set unchanged; fatal outcomes coincide as well. -/
theorem c6_dry_run (r : Repo) (s : Service) (md : Option String)
    (delOk delOk' : String → Bool) :
    clean_branches r true s md delOk =
      (clean_branches r false s md delOk').map fun p => (p.1, branchNames r) := by
  unfold clean_branches
  by_cases hlen : r.remotes.length ≠ 1
  · simp [hlen, Except.map]
  · simp only [hlen, if_false]
    cases hh : r.remotes.head? with
    | none => simp [hh, Except.map]
    | some o =>
      cases o with
      | none => simp [hh, Except.map]
      | some rn =>
        simp only [hh]
        cases hfr : r.find_remote rn with
        | error e => simp [hfr, Except.map]
        | ok uo =>
          cases uo with
          | none => simp [hfr, Except.map]
          | some url =>
            simp only [hfr]
            cases hp : parse_git_url url with
            | none => simp [hp, Except.map]
            | some pr =>
              obtain ⟨o2, rp⟩ := pr
              simp [hp, Except.map, applyDeletions_dry]

/-- C7 counterexample: a repository whose only local branch has a name that
is not decodable as UTF-8.  The claim says the run returns a fatal error;
the code instead silently filters the branch out (lib.rs:131-132, the
`BranchNameNotUtf8` error variant is never constructed) and the run
succeeds with no verdicts. -/
theorem c7_counterexample :
    clean_branches c7Repo false c7Service none (fun _ => true) =
      Except.ok ([], []) := rfl

/-- C7 amended: a branch whose name is not decodable as UTF-8 is silently
skipped before evaluation — the run behaves exactly as if the branch list
contained only the decodable names — and the run does not fail on its
account. -/
theorem c7_nonutf8_branches_skipped (r : Repo) (dry : Bool) (s : Service)
    (md : Option String) (delOk : String → Bool) :
    clean_branches r dry s md delOk =
      clean_branches { r with branches := (branchNames r).map some }
        dry s md delOk := by
  obtain ⟨rem, fr, br⟩ := r
  unfold clean_branches
  simp only [branchNames, filterMap_id_map_some]

end GitClean
